import Mathlib

/-!
Verification of the fuzzy subsequence matcher
(`codex-rs/utils/fuzzy-match/src/lib.rs`).

Strings are modelled as `List Char` (Rust iterates `chars()`, i.e. Unicode
scalar values).  The `i32` arithmetic of the score computation is modelled on
`Int` with an explicit two's-complement wrap (`wrap32`), matching the
release-mode semantics of the `as i32` casts and arithmetic in the source.
-/

namespace FuzzyMatch

/-- Lowercasing of a single character, modelling Rust's `char::to_lowercase`
restricted to the character classes exercised here: ASCII uppercase letters
map to their lowercase counterpart, U+0130 (LATIN CAPITAL LETTER I WITH DOT
ABOVE) expands to the two-character sequence U+0069 U+0307, and every other
character is returned unchanged (in particular U+00DF stays U+00DF, as in
`char::to_lowercase`). -/
def charLower (c : Char) : List Char :=
  if 65 ≤ c.toNat ∧ c.toNat ≤ 90 then [Char.ofNat (c.toNat + 32)]
  else if c.toNat = 0x130 then [Char.ofNat 0x69, Char.ofNat 0x307]
  else [c]

/-- ASCII lowercase conversion, the `lower` function of the case-insensitivity
property in the specification. -/
def asciiLower (c : Char) : Char :=
  if 65 ≤ c.toNat ∧ c.toNat ≤ 90 then Char.ofNat (c.toNat + 32) else c

/-- Lowering of a whole string: each character is expanded by `charLower` and
the results are concatenated, as in `needle.to_lowercase()` /
`ch.to_lowercase()` iteration in the source. -/
def lowerList (l : List Char) : List Char :=
  l.flatMap charLower

/-- The lowering map of the source (`lowered_chars` zipped with
`lowered_to_orig_char_idx`): each haystack character, taken left to right
starting at original index `i`, contributes one `(lowered char, original
index)` pair per character of its lowercase expansion. -/
def lowerMapFrom : List Char → Nat → List (Char × Nat)
  | [], _ => []
  | c :: rest, i => ((charLower c).map fun lc => (lc, i)) ++ lowerMapFrom rest (i + 1)

/-- The lowering map of a haystack, built from original index 0. -/
def lowerMap (h : List Char) : List (Char × Nat) :=
  lowerMapFrom h 0

/-- `lowered_chars` of the source: the lowered haystack characters. -/
def loweredChars (h : List Char) : List Char :=
  (lowerMap h).map Prod.fst

/-- `lowered_to_orig_char_idx` of the source: the parallel list of original
character indices. -/
def loweredToOrig (h : List Char) : List Nat :=
  (lowerMap h).map Prod.snd

/-- Index of the first occurrence of `a` in a list, if any.  Models both the
inner `while` loop of the scan (searching forward from the cursor) and the
`iter().position(...)` call that re-locates the first lowered entry of an
original index. -/
def findFirst {α : Type} [DecidableEq α] : List α → α → Option Nat
  | [], _ => none
  | c :: rest, a => if c = a then some 0 else (findFirst rest a).map (· + 1)

/-- The greedy forward scan of the source: for each lowered needle character in
order, search the lowered haystack forward from the cursor `cur` for its first
occurrence, record that position, and continue just past it.  Returns the list
of matched lowered positions, or `none` as soon as some needle character is
not found. -/
def greedyScan (l : List Char) : List Char → Nat → Option (List Nat)
  | [], _ => some []
  | nc :: rest, cur =>
    match (findFirst (l.drop cur) nc).map (cur + ·) with
    | none => none
    | some pos =>
      match greedyScan l rest (pos + 1) with
      | none => none
      | some ps => some (pos :: ps)

/-- `i32::MAX`. -/
def i32Max : Int := 2147483647

/-- Two's-complement wrap into the signed 32-bit range, the release-mode
semantics of `as i32` casts and of `i32` addition/subtraction in the source. -/
def wrap32 (x : Int) : Int :=
  (x + 2 ^ 31) % 2 ^ 32 - 2 ^ 31

/-- `sort_unstable` followed by `dedup` of the source: sort ascending, then
remove consecutive duplicates. -/
def sortDedup (l : List Nat) : List Nat :=
  (l.insertionSort (· ≤ ·)).destutter (· ≠ ·)

/-- `result_orig_indices` of the source: the original haystack index recorded
for each matched lowered position. -/
def origIndicesOf (h : List Char) (ps : List Nat) : List Nat :=
  ps.map fun p => (loweredToOrig h).getD p 0

/-- `first_lower_pos` of the source: 0 if nothing was recorded, otherwise the
position of the first entry of the lowering map whose original index equals
the first recorded original index (`unwrap_or(0)` as in the source). -/
def firstLowerPosOf (h : List Char) (origs : List Nat) : Nat :=
  match origs with
  | [] => 0
  | t :: _ => (findFirst (loweredToOrig h) t).getD 0

/-- `last_lower_pos` of the source after `unwrap_or(first_lower_pos)`: the last
matched lowered position, defaulting to `firstLP`. -/
def lastLowerPosOf (ps : List Nat) (firstLP : Nat) : Nat :=
  (ps.getLast?).getD firstLP

/-- The `window` expression of the source,
`(last_lower_pos as i32 - first_lower_pos as i32 + 1) - (lowered_needle.len() as i32)`,
with every cast and every `i32` operation wrapped into the signed 32-bit
range (release-mode semantics). -/
def windowOf (lastLP firstLP needleLen : Nat) : Int :=
  wrap32 (wrap32 (wrap32 (wrap32 (lastLP : Int) - wrap32 (firstLP : Int)) + 1) -
    wrap32 (needleLen : Int))

/-- The score computation of the source for a completed scan with matched
lowered positions `ps`: clamp the window at 0, then subtract 100 when the
first matched lowered position is 0. -/
def scoreOf (h : List Char) (needleLen : Nat) (ps : List Nat) : Int :=
  let firstLP := firstLowerPosOf h (origIndicesOf h ps)
  let lastLP := lastLowerPosOf ps firstLP
  let s := max (windowOf lastLP firstLP needleLen) 0
  if firstLP = 0 then s - 100 else s

/-- `fuzzy_match` of the source. -/
def fuzzy_match (haystack needle : List Char) : Option (List Nat × Int) :=
  if needle = [] then some ([], i32Max)
  else
    let lneedle := lowerList needle
    match greedyScan (loweredChars haystack) lneedle 0 with
    | none => none
    | some ps =>
      some (sortDedup (origIndicesOf haystack ps), scoreOf haystack lneedle.length ps)

/-- `fuzzy_indices` of the source: the match with the score discarded and the
indices sorted and deduplicated (again). -/
def fuzzy_indices (haystack needle : List Char) : Option (List Nat) :=
  (fuzzy_match haystack needle).map fun p => sortDedup p.1

/-- The window formula exactly as the specification states it: pure integer
arithmetic, no 32-bit wrap. -/
def specWindow (lastLP firstLP needleLen : Nat) : Int :=
  ((lastLP : Int) - (firstLP : Int) + 1) - (needleLen : Int)

/-- The score formula exactly as the specification states it:
`max(window, 0)`, minus 100 exactly when the first matched lowered position
is 0. -/
def specScore (lastLP firstLP needleLen : Nat) : Int :=
  if firstLP = 0 then max (specWindow lastLP firstLP needleLen) 0 - 100
  else max (specWindow lastLP firstLP needleLen) 0

/-- A haystack that spreads the two-character needle `"ab"` across `N`
intervening characters: `'x'`, then `'a'`, then `N` copies of `'x'`, then
`'b'`. -/
def spreadHaystack (N : Nat) : List Char :=
  'x' :: 'a' :: (List.replicate N 'x' ++ ['b'])

/-! ### Basic facts about the lowering -/

open List

theorem charLower_ne_nil (c : Char) : charLower c ≠ [] := by
  unfold charLower
  split
  · simp
  · split <;> simp

theorem lowerList_ne_nil {l : List Char} (h : l ≠ []) : lowerList l ≠ [] := by
  cases l with
  | nil => exact absurd rfl h
  | cons c rest =>
    have hc := charLower_ne_nil c
    simp only [lowerList, List.flatMap_cons, ne_eq, List.append_eq_nil]
    tauto

theorem lowerMapFrom_map_fst (l : List Char) (i : Nat) :
    (lowerMapFrom l i).map Prod.fst = lowerList l := by
  induction l generalizing i with
  | nil => rfl
  | cons c rest ih =>
    simp only [lowerMapFrom, lowerList, List.flatMap_cons, List.map_append, List.map_map,
      ih, lowerList]
    congr 1
    have hid : (Prod.fst ∘ fun lc : Char => (lc, i)) = id := rfl
    rw [hid, List.map_id]

theorem loweredChars_eq_lowerList (h : List Char) : loweredChars h = lowerList h :=
  lowerMapFrom_map_fst h 0

theorem snd_mem_lowerMapFrom {l : List Char} {i : Nat} {p : Char × Nat}
    (hp : p ∈ lowerMapFrom l i) : i ≤ p.2 ∧ p.2 < i + l.length := by
  induction l generalizing i with
  | nil => simp [lowerMapFrom] at hp
  | cons c rest ih =>
    simp only [lowerMapFrom, List.mem_append, List.mem_map] at hp
    rcases hp with ⟨lc, _, rfl⟩ | hp
    · simp only [List.length_cons]
      omega
    · have := ih hp
      simp only [List.length_cons]
      omega

theorem mem_loweredToOrig_lt {h : List Char} {q : Nat} (hq : q ∈ loweredToOrig h) :
    q < h.length := by
  simp only [loweredToOrig, lowerMap, List.mem_map] at hq
  obtain ⟨p, hp, rfl⟩ := hq
  have := snd_mem_lowerMapFrom hp
  omega

theorem sorted_map_snd_lowerMapFrom (l : List Char) (i : Nat) :
    List.Sorted (· ≤ ·) ((lowerMapFrom l i).map Prod.snd) := by
  induction l generalizing i with
  | nil => simp [lowerMapFrom]
  | cons c rest ih =>
    simp only [lowerMapFrom, List.map_append]
    rw [List.Sorted, List.pairwise_append]
    refine ⟨?_, ih (i + 1), ?_⟩
    · rw [List.map_map, List.pairwise_map]
      exact List.pairwise_of_forall (fun _ _ => le_refl i)
    · intro a ha b hb
      simp only [List.map_map, List.mem_map, Function.comp] at ha
      obtain ⟨lc, _, rfl⟩ := ha
      simp only [List.mem_map] at hb
      obtain ⟨p, hp, rfl⟩ := hb
      have := snd_mem_lowerMapFrom hp
      omega

theorem sorted_loweredToOrig (h : List Char) : List.Sorted (· ≤ ·) (loweredToOrig h) :=
  sorted_map_snd_lowerMapFrom h 0

theorem loweredToOrig_length (h : List Char) :
    (loweredToOrig h).length = (loweredChars h).length := by
  simp [loweredToOrig, loweredChars]

/-! ### `findFirst` -/

theorem findFirst_eq_none_iff {α : Type} [DecidableEq α] (l : List α) (a : α) :
    findFirst l a = none ↔ a ∉ l := by
  induction l with
  | nil => simp [findFirst]
  | cons c rest ih =>
    simp only [findFirst]
    split
    · next hc => simp [hc]
    · next hc =>
      rw [Option.map_eq_none', ih]
      simp only [List.mem_cons, not_or]
      constructor
      · intro hr
        exact ⟨fun hac => hc hac.symm, hr⟩
      · intro hr
        exact hr.2

theorem findFirst_eq_some {α : Type} [DecidableEq α] {l : List α} {a : α} {i : Nat}
    (h : findFirst l a = some i) :
    l[i]? = some a ∧ ∀ j, j < i → l[j]? ≠ some a := by
  induction l generalizing i with
  | nil => simp [findFirst] at h
  | cons c rest ih =>
    simp only [findFirst] at h
    split at h
    · next hc =>
      cases h
      subst hc
      exact ⟨by simp, fun j hj => by omega⟩
    · next hc =>
      rw [Option.map_eq_some'] at h
      obtain ⟨i', hi', rfl⟩ := h
      have hih := ih hi'
      refine ⟨by simpa using hih.1, ?_⟩
      intro j hj
      cases j with
      | zero =>
        simp only [List.getElem?_cons_zero, ne_eq, Option.some.injEq]
        exact hc
      | succ j' =>
        simpa using hih.2 j' (by omega)

theorem findFirst_lt_length {α : Type} [DecidableEq α] {l : List α} {a : α} {i : Nat}
    (h : findFirst l a = some i) : i < l.length := by
  have h1 := (findFirst_eq_some h).1
  by_contra hle
  rw [List.getElem?_eq_none (by omega)] at h1
  cases h1

theorem findFirst_isSome_of_mem {α : Type} [DecidableEq α] {l : List α} {a : α}
    (h : a ∈ l) : ∃ i, findFirst l a = some i := by
  cases hf : findFirst l a with
  | none => exact absurd h ((findFirst_eq_none_iff l a).mp hf)
  | some i => exact ⟨i, rfl⟩

theorem findFirst_le_of_getElem? {α : Type} [DecidableEq α] {l : List α} {a : α} {i j : Nat}
    (h : findFirst l a = some i) (hj : l[j]? = some a) : i ≤ j := by
  by_contra hlt
  exact (findFirst_eq_some h).2 j (by omega) hj

/-! ### The greedy-completeness direction: first occurrences suffice -/

theorem sublist_drop_of_findFirst {α : Type} [DecidableEq α] {a : α} {t s : List α} {i : Nat}
    (hsub : (a :: t) <+ s) (hf : findFirst s a = some i) :
    t <+ s.drop (i + 1) := by
  induction s generalizing i with
  | nil => cases hsub
  | cons b s' ih =>
    simp only [findFirst] at hf
    split at hf
    · next hb =>
      cases hf
      subst hb
      simpa using List.cons_sublist_cons.mp hsub
    · next hb =>
      rw [Option.map_eq_some'] at hf
      obtain ⟨i', hi', rfl⟩ := hf
      have hsub' : a :: t <+ s' := by
        cases hsub with
        | cons _ h => exact h
        | cons₂ _ h => exact absurd rfl hb
      simpa using ih hsub' hi'

/-! ### `greedyScan` -/

theorem greedyScan_eq_none_iff (l : List Char) (n : List Char) (cur : Nat) :
    greedyScan l n cur = none ↔ ¬ n <+ l.drop cur := by
  induction n generalizing cur with
  | nil => simp [greedyScan]
  | cons nc rest ih =>
    simp only [greedyScan]
    cases hf : findFirst (l.drop cur) nc with
    | none =>
      simp only [Option.map_none']
      constructor
      · intro _ hsub
        have hmem : nc ∈ l.drop cur := hsub.subset (List.mem_cons_self nc rest)
        exact (findFirst_eq_none_iff _ _).mp hf hmem
      · intro _
        trivial
    | some i =>
      simp only [Option.map_some']
      have hget : (l.drop cur)[i]? = some nc := (findFirst_eq_some hf).1
      have hlt : i < (l.drop cur).length := findFirst_lt_length hf
      cases hg : greedyScan l rest (cur + i + 1) with
      | none =>
        simp only [true_iff]
        intro hsub
        have h1 : rest <+ (l.drop cur).drop (i + 1) := sublist_drop_of_findFirst hsub hf
        rw [List.drop_drop] at h1
        rw [show cur + (i + 1) = cur + i + 1 by omega] at h1
        exact (ih (cur + i + 1)).mp hg h1
      | some ps =>
        have hrest : rest <+ l.drop (cur + i + 1) := by
          by_contra hr
          exact absurd ((ih (cur + i + 1)).mpr hr) (by simp [hg])
        have hdecomp : (l.drop cur).drop i = nc :: (l.drop cur).drop (i + 1) := by
          rw [← List.getElem_cons_drop (l.drop cur) i hlt]
          have hgg := List.getElem?_eq_getElem hlt
          rw [hget] at hgg
          simp only [Option.some.injEq] at hgg
          rw [hgg]
        have hsub1 : nc :: rest <+ (l.drop cur).drop i := by
          rw [hdecomp]
          apply List.Sublist.cons₂
          rw [List.drop_drop]
          rw [show cur + (i + 1) = cur + i + 1 by omega]
          exact hrest
        exact iff_of_false (by simp)
          (not_not_intro (hsub1.trans (List.drop_sublist i (l.drop cur))))

theorem greedyScan_eq_some_facts {l : List Char} {n : List Char} {cur : Nat} {ps : List Nat}
    (h : greedyScan l n cur = some ps) :
    ps.length = n.length ∧ (∀ p ∈ ps, cur ≤ p ∧ p < l.length) ∧
      List.Sorted (· < ·) ps := by
  induction n generalizing cur ps with
  | nil =>
    simp only [greedyScan, Option.some.injEq] at h
    subst h
    simp
  | cons nc rest ih =>
    simp only [greedyScan] at h
    cases hf : findFirst (l.drop cur) nc with
    | none => rw [hf] at h; cases h
    | some i =>
      rw [hf] at h
      simp only [Option.map_some'] at h
      cases hg : greedyScan l rest (cur + i + 1) with
      | none => rw [hg] at h; cases h
      | some ps' =>
        rw [hg] at h
        simp only [Option.some.injEq] at h
        subst h
        obtain ⟨hlen, hbd, hsort⟩ := ih hg
        have hi : i < (l.drop cur).length := findFirst_lt_length hf
        rw [List.length_drop] at hi
        refine ⟨by simp [hlen], ?_, ?_⟩
        · intro p hp
          rcases List.mem_cons.mp hp with rfl | hp'
          · omega
          · have := hbd p hp'
            omega
        · rw [List.sorted_cons]
          refine ⟨fun b hb => ?_, hsort⟩
          have := hbd b hb
          omega

/-! ### `sortDedup` -/

theorem chain'_and {α : Type} {R S : α → α → Prop} :
    ∀ {l : List α}, List.Chain' R l → List.Chain' S l →
      List.Chain' (fun a b => R a b ∧ S a b) l
  | [], _, _ => by simp
  | [_], _, _ => by simp
  | _ :: b :: t, hR, hS => by
    rw [List.chain'_cons] at hR hS ⊢
    exact ⟨⟨hR.1, hS.1⟩, chain'_and hR.2 hS.2⟩

theorem sortDedup_sorted (l : List Nat) : List.Sorted (· < ·) (sortDedup l) := by
  have h1 : List.Sorted (· ≤ ·) (l.insertionSort (· ≤ ·)) :=
    List.sorted_insertionSort _ l
  have h2 : List.Sorted (· ≤ ·) (sortDedup l) :=
    h1.sublist (List.destutter_sublist _ _)
  have h3 : List.Chain' (· ≠ ·) (sortDedup l) := List.destutter_is_chain' _ _
  have h4 : List.Chain' (· ≤ ·) (sortDedup l) := List.chain'_iff_pairwise.mpr h2
  have h5 : List.Chain' (· < ·) (sortDedup l) :=
    (chain'_and h4 h3).imp fun _ _ hab => lt_of_le_of_ne hab.1 hab.2

  exact List.chain'_iff_pairwise.mp h5

theorem mem_sortDedup {l : List Nat} {a : Nat} (h : a ∈ sortDedup l) : a ∈ l := by
  have h1 := (List.destutter_sublist _ (l.insertionSort (· ≤ ·))).subset h
  exact (List.perm_insertionSort _ l).subset h1

theorem sortDedup_length_le (l : List Nat) : (sortDedup l).length ≤ l.length := by
  have h1 := (List.destutter_sublist (· ≠ ·) (l.insertionSort (· ≤ ·))).length_le
  rw [(List.perm_insertionSort _ l).length_eq] at h1
  exact h1

theorem sortDedup_eq_self {l : List Nat} (h : List.Sorted (· < ·) l) :
    sortDedup l = l := by
  have hle : List.Sorted (· ≤ ·) l := h.imp le_of_lt
  rw [sortDedup, hle.insertionSort_eq]
  exact List.destutter_of_chain' _ _ ((h.imp fun hab => ne_of_lt hab).chain')

/-! ### `wrap32` -/

theorem wrap32_eq_self {x : Int} (h1 : -(2 ^ 31) ≤ x) (h2 : x < 2 ^ 31) :
    wrap32 x = x := by
  unfold wrap32
  rw [Int.emod_eq_of_lt (by omega) (by omega)]
  omega

theorem wrap32_lt (x : Int) : wrap32 x < 2 ^ 31 := by
  unfold wrap32
  have := Int.emod_lt_of_pos (x + 2 ^ 31) (show (0 : Int) < 2 ^ 32 by norm_num)
  omega

theorem neg_le_wrap32 (x : Int) : -(2 ^ 31) ≤ wrap32 x := by
  unfold wrap32
  have := Int.emod_nonneg (x + 2 ^ 31) (show (2 ^ 32 : Int) ≠ 0 by norm_num)
  omega

theorem dvd_wrap32_sub (x : Int) : (2 ^ 32 : Int) ∣ wrap32 x - x := by
  unfold wrap32
  have h := Int.emod_def (x + 2 ^ 31) (2 ^ 32)
  exact ⟨-((x + 2 ^ 31) / 2 ^ 32), by linarith⟩

theorem wrap32_add_mul (x k : Int) : wrap32 (x + 2 ^ 32 * k) = wrap32 x := by
  unfold wrap32
  rw [show x + 2 ^ 32 * k + 2 ^ 31 = x + 2 ^ 31 + 2 ^ 32 * k by ring,
    Int.add_mul_emod_self_left]

theorem wrap32_congr {x y : Int} (h : (2 ^ 32 : Int) ∣ x - y) :
    wrap32 x = wrap32 y := by
  obtain ⟨k, hk⟩ := h
  have hx : x = y + 2 ^ 32 * k := by linarith
  rw [hx, wrap32_add_mul]

theorem windowOf_eq_wrap (L F n : Nat) :
    windowOf L F n = wrap32 ((L : Int) - (F : Int) + 1 - (n : Int)) := by
  unfold windowOf
  apply wrap32_congr
  have h1 := dvd_wrap32_sub ((L : Nat) : Int)
  have h2 := dvd_wrap32_sub ((F : Nat) : Int)
  have h3 := dvd_wrap32_sub ((n : Nat) : Int)
  have h4 := dvd_wrap32_sub (wrap32 ((L : Nat) : Int) - wrap32 ((F : Nat) : Int))
  have h5 := dvd_wrap32_sub (wrap32 (wrap32 ((L : Nat) : Int) - wrap32 ((F : Nat) : Int)) + 1)
  have hsplit :
      wrap32 (wrap32 (wrap32 ((L : Nat) : Int) - wrap32 ((F : Nat) : Int)) + 1) -
          wrap32 ((n : Nat) : Int) - (((L : Nat) : Int) - ((F : Nat) : Int) + 1 - ((n : Nat) : Int)) =
        (wrap32 (wrap32 (wrap32 ((L : Nat) : Int) - wrap32 ((F : Nat) : Int)) + 1) -
            (wrap32 (wrap32 ((L : Nat) : Int) - wrap32 ((F : Nat) : Int)) + 1)) +
          (wrap32 (wrap32 ((L : Nat) : Int) - wrap32 ((F : Nat) : Int)) -
            (wrap32 ((L : Nat) : Int) - wrap32 ((F : Nat) : Int))) +
          (wrap32 ((L : Nat) : Int) - ((L : Nat) : Int)) -
          (wrap32 ((F : Nat) : Int) - ((F : Nat) : Int)) -
          (wrap32 ((n : Nat) : Int) - ((n : Nat) : Int)) := by
    ring
  rw [hsplit]
  exact dvd_sub (dvd_sub (dvd_add (dvd_add h5 h4) h1) h2) h3

/-! ### Characterizing `fuzzy_match` -/

theorem fuzzy_match_nil_needle (h : List Char) :
    fuzzy_match h [] = some ([], i32Max) := rfl

theorem fuzzy_match_eq_some_of_scan {h n : List Char} (hn : n ≠ []) {ps : List Nat}
    (hg : greedyScan (loweredChars h) (lowerList n) 0 = some ps) :
    fuzzy_match h n =
      some (sortDedup (origIndicesOf h ps), scoreOf h (lowerList n).length ps) := by
  rw [fuzzy_match, if_neg hn]
  simp only [hg]

theorem fuzzy_match_eq_none_iff_scan {h n : List Char} (hn : n ≠ []) :
    fuzzy_match h n = none ↔ greedyScan (loweredChars h) (lowerList n) 0 = none := by
  rw [fuzzy_match, if_neg hn]
  cases hg : greedyScan (loweredChars h) (lowerList n) 0 with
  | none => simp [hg]
  | some ps => simp [hg]

theorem fuzzy_match_none_iff_aux {h n : List Char} (hn : n ≠ []) :
    fuzzy_match h n = none ↔ ¬ lowerList n <+ loweredChars h := by
  rw [fuzzy_match_eq_none_iff_scan hn, greedyScan_eq_none_iff, List.drop_zero]

theorem fuzzy_match_eq_some_elim {h n : List Char} (hn : n ≠ []) {r : List Nat × Int}
    (hm : fuzzy_match h n = some r) :
    ∃ ps, greedyScan (loweredChars h) (lowerList n) 0 = some ps ∧
      r = (sortDedup (origIndicesOf h ps), scoreOf h (lowerList n).length ps) := by
  cases hg : greedyScan (loweredChars h) (lowerList n) 0 with
  | none =>
    rw [(fuzzy_match_eq_none_iff_scan hn).mpr hg] at hm
    cases hm
  | some ps =>
    rw [fuzzy_match_eq_some_of_scan hn hg] at hm
    exact ⟨ps, rfl, (Option.some.injEq _ _).mp hm.symm⟩

/-! ### Facts about a successful scan -/

theorem findFirst_getD_le {m : List Nat} {p : Nat} (hp : p < m.length) :
    ∃ i, findFirst m (m.getD p 0) = some i ∧ i ≤ p := by
  have hget : m[p]? = some (m.getD p 0) := by
    simp [List.getD_eq_getElem?_getD, List.getElem?_eq_getElem hp]
  have hmem : m.getD p 0 ∈ m := List.getElem?_mem hget
  obtain ⟨i, hi⟩ := findFirst_isSome_of_mem hmem
  exact ⟨i, hi, findFirst_le_of_getElem? hi hget⟩

theorem success_facts {h n : List Char} (hn : n ≠ []) {ps : List Nat}
    (hg : greedyScan (loweredChars h) (lowerList n) 0 = some ps) :
    ps ≠ [] ∧
      firstLowerPosOf h (origIndicesOf h ps) ≤
        lastLowerPosOf ps (firstLowerPosOf h (origIndicesOf h ps)) ∧
      lastLowerPosOf ps (firstLowerPosOf h (origIndicesOf h ps)) <
        (loweredChars h).length ∧
      1 ≤ (lowerList n).length ∧
      (lowerList n).length ≤ (loweredChars h).length := by
  obtain ⟨hlen, hbd, hsort⟩ := greedyScan_eq_some_facts hg
  have hnne : lowerList n ≠ [] := lowerList_ne_nil hn
  have hlenpos : 0 < (lowerList n).length := List.length_pos.mpr hnne
  have hpsne : ps ≠ [] := by
    intro hpseq
    rw [hpseq] at hlen
    simp only [List.length_nil] at hlen
    omega
  have hsub : lowerList n <+ loweredChars h := by
    by_contra hns
    have hnone := (greedyScan_eq_none_iff (loweredChars h) (lowerList n) 0).mpr
      (by rw [List.drop_zero]; exact hns)
    rw [hg] at hnone
    cases hnone
  obtain ⟨p, pr, hps⟩ := List.exists_cons_of_ne_nil hpsne
  subst hps
  have horigs : origIndicesOf h (p :: pr) =
      (loweredToOrig h).getD p 0 :: origIndicesOf h pr := by
    simp [origIndicesOf]
  have hp : p < (loweredToOrig h).length := by
    rw [loweredToOrig_length]
    exact (hbd p (List.mem_cons_self p pr)).2
  obtain ⟨i, hi, hip⟩ := findFirst_getD_le hp
  have hf : firstLowerPosOf h (origIndicesOf h (p :: pr)) = i := by
    rw [horigs, firstLowerPosOf, hi]
    rfl
  cases hL : (p :: pr).getLast? with
  | none => rw [List.getLast?_eq_none_iff] at hL; cases hL
  | some x =>
    have hxmem : x ∈ p :: pr := List.mem_of_getLast?_eq_some hL
    have hlastx : lastLowerPosOf (p :: pr) (firstLowerPosOf h (origIndicesOf h (p :: pr))) = x := by
      rw [lastLowerPosOf, hL]
      rfl
    have hpx : p ≤ x := by
      rcases List.mem_cons.mp hxmem with rfl | hx
      · exact le_refl x
      · exact le_of_lt (List.rel_of_sorted_cons hsort x hx)
    have hxlt : x < (loweredChars h).length := (hbd x hxmem).2
    refine ⟨by simp, ?_, ?_, hlenpos, hsub.length_le⟩
    · rw [hlastx, hf]
      omega
    · rw [hlastx]
      exact hxlt

theorem scoreOf_spec {h n : List Char} (hn : n ≠ []) {ps : List Nat}
    (hg : greedyScan (loweredChars h) (lowerList n) 0 = some ps)
    (hsize : (loweredChars h).length < 2 ^ 31) :
    scoreOf h (lowerList n).length ps =
      specScore (lastLowerPosOf ps (firstLowerPosOf h (origIndicesOf h ps)))
        (firstLowerPosOf h (origIndicesOf h ps)) (lowerList n).length ∧
      specWindow (lastLowerPosOf ps (firstLowerPosOf h (origIndicesOf h ps)))
        (firstLowerPosOf h (origIndicesOf h ps)) (lowerList n).length <
        ((loweredChars h).length : Int) := by
  obtain ⟨-, hfle, hlast, hlen1, hlenle⟩ := success_facts hn hg
  set f := firstLowerPosOf h (origIndicesOf h ps) with hfdef
  set L := lastLowerPosOf ps f with hLdef
  set nl := (lowerList n).length with hnldef
  have hWdef : specWindow L f nl = ((L : Int) - (f : Int) + 1) - (nl : Int) := rfl
  have hWlt : specWindow L f nl < ((loweredChars h).length : Int) := by
    rw [hWdef]
    have h1 : (L : Int) < ((loweredChars h).length : Int) := by exact_mod_cast hlast
    have h2 : (1 : Int) ≤ (nl : Int) := by exact_mod_cast hlen1
    have h3 : (0 : Int) ≤ (f : Int) := Int.natCast_nonneg f
    omega
  have hWge : -(2 ^ 31 : Int) ≤ specWindow L f nl := by
    rw [hWdef]
    have h1 : (f : Int) ≤ (L : Int) := by exact_mod_cast hfle
    have h2 : (nl : Int) ≤ ((loweredChars h).length : Int) := by exact_mod_cast hlenle
    have h3 : ((loweredChars h).length : Int) < 2 ^ 31 := by exact_mod_cast hsize
    omega
  have hwrap : windowOf L f nl = specWindow L f nl := by
    rw [windowOf_eq_wrap, hWdef]
    exact wrap32_eq_self hWge (by
      have h3 : ((loweredChars h).length : Int) < 2 ^ 31 := by exact_mod_cast hsize
      omega)
  refine ⟨?_, hWlt⟩
  rw [scoreOf, specScore]
  simp only [← hfdef, ← hLdef, hwrap]

/-! ### Characters: `asciiLower` interacts with `charLower` -/

theorem char_toNat_ofNat_of_lt {m : Nat} (hm : m < 55296) :
    (Char.ofNat m).toNat = m := by
  have hv : m.isValidChar := Or.inl hm
  rw [Char.ofNat, dif_pos hv]
  rfl

theorem charLower_asciiLower (c : Char) : charLower (asciiLower c) = charLower c := by
  unfold asciiLower
  split
  · next hc =>
    have ht : (Char.ofNat (c.toNat + 32)).toNat = c.toNat + 32 :=
      char_toNat_ofNat_of_lt (by omega)
    unfold charLower
    rw [ht, if_neg (by omega), if_neg (by omega), if_pos hc]
  · rfl

theorem lowerList_map_asciiLower (l : List Char) :
    lowerList (l.map asciiLower) = lowerList l := by
  induction l with
  | nil => rfl
  | cons c rest ih =>
    simp only [lowerList, List.map_cons, List.flatMap_cons] at ih ⊢
    rw [charLower_asciiLower, ih]

theorem fuzzy_match_isSome_iff {h n : List Char} (hn : n ≠ []) :
    (fuzzy_match h n).isSome ↔ lowerList n <+ loweredChars h := by
  rw [Option.isSome_iff_ne_none, ne_eq, fuzzy_match_none_iff_aux hn, not_not]

/-! ### More helper facts -/

theorem getD_mem_of_lt {m : List Nat} {p : Nat} (hp : p < m.length) :
    m.getD p 0 ∈ m := by
  have hget : m[p]? = some (m.getD p 0) := by
    simp [List.getD_eq_getElem?_getD, List.getElem?_eq_getElem hp]
  exact List.getElem?_mem hget

theorem loweredToOrig_getD_mono {h : List Char} {a b : Nat} (hab : a ≤ b)
    (hb : b < (loweredToOrig h).length) :
    (loweredToOrig h).getD a 0 ≤ (loweredToOrig h).getD b 0 := by
  have ha : a < (loweredToOrig h).length := by omega
  rw [List.getD_eq_getElem?_getD, List.getD_eq_getElem?_getD,
    List.getElem?_eq_getElem ha, List.getElem?_eq_getElem hb]
  simp only [Option.getD_some]
  rcases eq_or_lt_of_le hab with rfl | hlt
  · exact le_refl _
  · have hr := (sorted_loweredToOrig h).rel_get_of_lt
      (a := ⟨a, ha⟩) (b := ⟨b, hb⟩) (by simpa using hlt)
    simpa using hr

theorem scoreOf_ge (h : List Char) (nl : Nat) (ps : List Nat) :
    -100 ≤ scoreOf h nl ps := by
  simp only [scoreOf]
  have hmax := le_max_right
    (windowOf (lastLowerPosOf ps (firstLowerPosOf h (origIndicesOf h ps)))
      (firstLowerPosOf h (origIndicesOf h ps)) nl) (0 : Int)
  split <;> omega

/-! ## The claims -/

/-- C1: for every haystack and every non-empty needle, `fuzzy_match` returns
the no-match signal `none` exactly when the lowered needle characters do not
occur, in order, as a subsequence of the lowered haystack characters; this is
the only failure mode. -/
theorem fuzzy_match_none_iff_not_subsequence (h n : List Char) (hn : n ≠ []) :
    fuzzy_match h n = none ↔ ¬ lowerList n <+ loweredChars h :=
  fuzzy_match_none_iff_aux hn

theorem fuzzy_match_none_iff_not_subsequence_witness :
    ("lh".data ≠ []) ∧
      (fuzzy_match "hello".data "lh".data = none ↔
        ¬ lowerList "lh".data <+ loweredChars "hello".data) :=
  ⟨by decide, fuzzy_match_none_iff_not_subsequence _ _ (by decide)⟩

/-- C2: for every haystack, an empty needle succeeds unconditionally with an
empty index set and the maximum representable signed 32-bit score. -/
theorem fuzzy_match_empty_needle (h : List Char) :
    fuzzy_match h [] = some ([], i32Max) := rfl

/-- C5: the four concrete cases stated by the specification, including the
U+0130 expansion case where the single original character is deduplicated to
one index. -/
theorem fuzzy_match_concrete_cases :
    fuzzy_match "hello".data "hl".data = some ([0, 2], -99) ∧
      fuzzy_match "hello".data "lh".data = none ∧
      fuzzy_match "a-b-c".data "abc".data = some ([0, 2, 4], -98) ∧
      fuzzy_match [Char.ofNat 0x130] [Char.ofNat 0x69, Char.ofNat 0x307] =
        some ([0], -100) :=
  ⟨by decide, by decide, by decide, by decide⟩

/-- C6: for every scan that succeeds, the matched lowered positions are
strictly increasing, the recorded original indices are non-decreasing, and the
lowering map itself is non-decreasing in original index. -/
theorem greedy_forward_monotone (h : List Char) (n : List Char) (cur : Nat)
    (ps : List Nat) (hscan : greedyScan (loweredChars h) n cur = some ps) :
    List.Sorted (· < ·) ps ∧ List.Sorted (· ≤ ·) (origIndicesOf h ps) ∧
      List.Sorted (· ≤ ·) (loweredToOrig h) := by
  obtain ⟨hlen, hbd, hsort⟩ := greedyScan_eq_some_facts hscan
  refine ⟨hsort, ?_, sorted_loweredToOrig h⟩
  rw [origIndicesOf, List.Sorted, List.pairwise_map]
  refine hsort.imp_of_mem ?_
  intro a b ha hb hab
  have hblt : b < (loweredToOrig h).length := by
    rw [loweredToOrig_length]
    exact (hbd b hb).2
  exact loweredToOrig_getD_mono (le_of_lt hab) hblt

theorem greedy_forward_monotone_witness :
    greedyScan (loweredChars "a-b-c".data) (lowerList "abc".data) 0 = some [0, 2, 4] ∧
      (List.Sorted (· < ·) [0, 2, 4] ∧
        List.Sorted (· ≤ ·) (origIndicesOf "a-b-c".data [0, 2, 4]) ∧
        List.Sorted (· ≤ ·) (loweredToOrig "a-b-c".data)) :=
  ⟨by decide, greedy_forward_monotone "a-b-c".data (lowerList "abc".data) 0 [0, 2, 4] (by decide)⟩

/-- C7: for ASCII haystack and needle, the match succeeds exactly when the
match of the ASCII-lowercased haystack against the ASCII-lowercased needle
succeeds. -/
theorem fuzzy_match_case_insensitive (h n : List Char)
    (hh : ∀ c ∈ h, c.toNat < 128) (hn : ∀ c ∈ n, c.toNat < 128) :
    ((fuzzy_match h n).isSome ↔
      (fuzzy_match (h.map asciiLower) (n.map asciiLower)).isSome) := by
  by_cases hne : n = []
  · subst hne
    simp [fuzzy_match_nil_needle]
  · have hne2 : n.map asciiLower ≠ [] := by simpa using hne
    rw [fuzzy_match_isSome_iff hne, fuzzy_match_isSome_iff hne2,
      lowerList_map_asciiLower, loweredChars_eq_lowerList,
      loweredChars_eq_lowerList, lowerList_map_asciiLower]

theorem fuzzy_match_case_insensitive_witness :
    (∀ c ∈ "FooBar".data, c.toNat < 128) ∧ (∀ c ∈ "foO".data, c.toNat < 128) ∧
      ((fuzzy_match "FooBar".data "foO".data).isSome ↔
        (fuzzy_match ("FooBar".data.map asciiLower)
          ("foO".data.map asciiLower)).isSome) :=
  ⟨by decide, by decide, fuzzy_match_case_insensitive _ _ (by decide) (by decide)⟩

/-- C8: `fuzzy_indices` fails exactly when `fuzzy_match` fails, and otherwise
returns exactly the index set of `fuzzy_match` (which is already sorted and
deduplicated) with the score discarded. -/
theorem fuzzy_indices_spec (h n : List Char) :
    (fuzzy_indices h n = none ↔ fuzzy_match h n = none) ∧
      fuzzy_indices h n = ((fuzzy_match h n).map fun p => sortDedup p.1) ∧
      fuzzy_indices h n = ((fuzzy_match h n).map fun p => p.1) := by
  refine ⟨?_, rfl, ?_⟩
  · rw [fuzzy_indices]
    cases fuzzy_match h n <;> simp
  · by_cases hn : n = []
    · subst hn
      rfl
    · cases hm : fuzzy_match h n with
      | none => simp [fuzzy_indices, hm]
      | some r =>
        obtain ⟨ps, hg, hr⟩ := fuzzy_match_eq_some_elim hn hm
        subst hr
        simp only [fuzzy_indices, hm, Option.map_some']
        rw [sortDedup_eq_self (sortDedup_sorted _)]

/-- C10: every successful non-empty-needle match scores at least -100, and
-100 is attained (by a contiguous match at the start of the haystack), so it
is the best possible score for a non-empty needle. -/
theorem score_lower_bound :
    (∀ (h n : List Char) (idxs : List Nat) (s : Int), n ≠ [] →
        fuzzy_match h n = some (idxs, s) → -100 ≤ s) ∧
      fuzzy_match ['a', 'b', 'c'] ['a', 'b', 'c'] = some ([0, 1, 2], -100) := by
  constructor
  · intro h n idxs s hn hm
    obtain ⟨ps, hg, hr⟩ := fuzzy_match_eq_some_elim hn hm
    have hs : s = scoreOf h (lowerList n).length ps := congrArg Prod.snd hr
    rw [hs]
    exact scoreOf_ge h (lowerList n).length ps
  · decide

theorem score_lower_bound_witness :
    (("hl".data ≠ []) ∧ fuzzy_match "hello".data "hl".data = some ([0, 2], -99)) ∧
      -100 ≤ (-99 : Int) :=
  ⟨⟨by decide, by decide⟩,
    score_lower_bound.1 "hello".data "hl".data [0, 2] (-99) (by decide) (by decide)⟩

/-- C4 counterexample: on haystack `"aa"` and needle `"aa"` the match succeeds
with two indices while the needle has only one distinct character, so the
claimed bound by the number of distinct needle characters fails. -/
theorem fuzzy_match_distinct_bound_fails :
    fuzzy_match ['a', 'a'] ['a', 'a'] = some ([0, 1], -100) ∧
      ¬ (([0, 1] : List Nat).length ≤ (['a', 'a'].dedup).length) :=
  ⟨by decide, by decide⟩

/-- C4 (amended): on success the returned index set is strictly ascending
(hence duplicate-free), every index is a valid character position in the
haystack, and the number of indices is at most the lowered needle length. -/
theorem fuzzy_match_success_indices (h n : List Char) (idxs : List Nat) (s : Int)
    (hm : fuzzy_match h n = some (idxs, s)) :
    List.Sorted (· < ·) idxs ∧ (∀ i ∈ idxs, i < h.length) ∧
      idxs.length ≤ (lowerList n).length := by
  by_cases hn : n = []
  · subst hn
    rw [fuzzy_match_nil_needle] at hm
    simp only [Option.some.injEq, Prod.mk.injEq] at hm
    rw [← hm.1]
    simp
  · obtain ⟨ps, hg, hr⟩ := fuzzy_match_eq_some_elim hn hm
    have hidx : idxs = sortDedup (origIndicesOf h ps) := congrArg Prod.fst hr
    subst hidx
    obtain ⟨hlen, hbd, hsort⟩ := greedyScan_eq_some_facts hg
    refine ⟨sortDedup_sorted _, ?_, ?_⟩
    · intro i hi
      have hio : i ∈ origIndicesOf h ps := mem_sortDedup hi
      rw [origIndicesOf, List.mem_map] at hio
      obtain ⟨p, hp, rfl⟩ := hio
      have hplt : p < (loweredToOrig h).length := by
        rw [loweredToOrig_length]
        exact (hbd p hp).2
      exact mem_loweredToOrig_lt (getD_mem_of_lt hplt)
    · calc (sortDedup (origIndicesOf h ps)).length
          ≤ (origIndicesOf h ps).length := sortDedup_length_le _
        _ = ps.length := by rw [origIndicesOf, List.length_map]
        _ = (lowerList n).length := hlen

theorem fuzzy_match_success_indices_witness :
    fuzzy_match "a-b-c".data "abc".data = some ([0, 2, 4], -98) ∧
      (List.Sorted (· < ·) [0, 2, 4] ∧
        (∀ i ∈ ([0, 2, 4] : List Nat), i < "a-b-c".data.length) ∧
        ([0, 2, 4] : List Nat).length ≤ (lowerList "abc".data).length) :=
  ⟨by decide, fuzzy_match_success_indices "a-b-c".data "abc".data [0, 2, 4] (-98) (by decide)⟩

/-- C3 (amended): for a successful non-empty-needle match on a haystack whose
lowered form has fewer than 2^31 characters, the returned score is the
specification's formula: `max(window, 0)`, minus 100 exactly when the first
matched lowered position is 0, where `window` is the pure-arithmetic span
formula over the re-located first position and the last matched position. -/
theorem fuzzy_match_score_formula (h n : List Char) (hn : n ≠ [])
    (hsize : (loweredChars h).length < 2 ^ 31)
    (ps idxs : List Nat) (s : Int)
    (hscan : greedyScan (loweredChars h) (lowerList n) 0 = some ps)
    (hm : fuzzy_match h n = some (idxs, s)) :
    s = specScore (lastLowerPosOf ps (firstLowerPosOf h (origIndicesOf h ps)))
        (firstLowerPosOf h (origIndicesOf h ps)) (lowerList n).length ∧
      (s = max (specWindow (lastLowerPosOf ps (firstLowerPosOf h (origIndicesOf h ps)))
            (firstLowerPosOf h (origIndicesOf h ps)) (lowerList n).length) 0 - 100 ↔
        firstLowerPosOf h (origIndicesOf h ps) = 0) := by
  obtain ⟨ps', hg', hr⟩ := fuzzy_match_eq_some_elim hn hm
  rw [hscan] at hg'
  obtain rfl : ps = ps' := (Option.some.injEq _ _).mp hg'
  have hs : s = scoreOf h (lowerList n).length ps := congrArg Prod.snd hr
  obtain ⟨hspec, hWlt⟩ := scoreOf_spec hn hscan hsize
  rw [hs, hspec]
  refine ⟨rfl, ?_⟩
  rw [specScore]
  by_cases hf : firstLowerPosOf h (origIndicesOf h ps) = 0
  · simp [hf]
  · rw [if_neg hf]
    constructor
    · intro hEq
      omega
    · intro hEq
      exact absurd hEq hf

theorem fuzzy_match_score_formula_witness :
    (("hl".data ≠ []) ∧ (loweredChars "hello".data).length < 2 ^ 31 ∧
        greedyScan (loweredChars "hello".data) (lowerList "hl".data) 0 = some [0, 2] ∧
        fuzzy_match "hello".data "hl".data = some ([0, 2], -99)) ∧
      ((-99 : Int) =
          specScore (lastLowerPosOf [0, 2] (firstLowerPosOf "hello".data
              (origIndicesOf "hello".data [0, 2])))
            (firstLowerPosOf "hello".data (origIndicesOf "hello".data [0, 2]))
            (lowerList "hl".data).length ∧
        ((-99 : Int) = max (specWindow (lastLowerPosOf [0, 2]
              (firstLowerPosOf "hello".data (origIndicesOf "hello".data [0, 2])))
            (firstLowerPosOf "hello".data (origIndicesOf "hello".data [0, 2]))
            (lowerList "hl".data).length) 0 - 100 ↔
          firstLowerPosOf "hello".data (origIndicesOf "hello".data [0, 2]) = 0)) :=
  ⟨⟨by decide, by decide, by decide, by decide⟩,
    fuzzy_match_score_formula "hello".data "hl".data (by decide) (by decide)
      [0, 2] [0, 2] (-99) (by decide) (by decide)⟩

/-- C9 (amended): for every haystack whose lowered form has fewer than 2^31
characters, a successful match with a non-empty needle never returns the
`i32::MAX` sentinel score. -/
theorem fuzzy_match_score_ne_sentinel (h n : List Char) (idxs : List Nat)
    (s : Int) (hn : n ≠ []) (hsize : (loweredChars h).length < 2 ^ 31)
    (hm : fuzzy_match h n = some (idxs, s)) : s ≠ i32Max := by
  obtain ⟨ps, hg, hr⟩ := fuzzy_match_eq_some_elim hn hm
  have hs : s = scoreOf h (lowerList n).length ps := congrArg Prod.snd hr
  obtain ⟨hspec, hWlt⟩ := scoreOf_spec hn hg hsize
  rw [hs, hspec, specScore]
  have hL2 : ((loweredChars h).length : Int) ≤ 2 ^ 31 - 1 := by
    have : ((loweredChars h).length : Int) < 2 ^ 31 := by exact_mod_cast hsize
    omega
  have hmc := max_choice (specWindow (lastLowerPosOf ps (firstLowerPosOf h
      (origIndicesOf h ps))) (firstLowerPosOf h (origIndicesOf h ps))
      (lowerList n).length) (0 : Int)
  unfold i32Max
  split <;> rcases hmc with hmc | hmc <;> omega

theorem fuzzy_match_score_ne_sentinel_witness :
    (("hl".data ≠ []) ∧ (loweredChars "hello".data).length < 2 ^ 31 ∧
        fuzzy_match "hello".data "hl".data = some ([0, 2], -99)) ∧
      (-99 : Int) ≠ i32Max :=
  ⟨⟨by decide, by decide, by decide⟩,
    fuzzy_match_score_ne_sentinel "hello".data "hl".data [0, 2] (-99)
      (by decide) (by decide) (by decide)⟩

/-! ### Evaluating the matcher on the spread haystack

These lemmas evaluate `fuzzy_match (spreadHaystack N) "ab"` symbolically in
`N`; they are used at `N` around `2 ^ 31`, where the `i32` window computation
of the source wraps. -/

theorem findFirst_cons_self {α : Type} [DecidableEq α] (a : α) (l : List α) :
    findFirst (a :: l) a = some 0 := by
  simp [findFirst]

theorem findFirst_cons_ne {α : Type} [DecidableEq α] {c a : α} (hca : c ≠ a)
    (l : List α) : findFirst (c :: l) a = (findFirst l a).map (· + 1) := by
  simp [findFirst, hca]

theorem findFirst_replicate_append {x a : Char} (hxa : x ≠ a) (n : Nat)
    (l : List Char) :
    findFirst (List.replicate n x ++ l) a = (findFirst l a).map (· + n) := by
  induction n with
  | zero =>
    simp only [List.replicate_zero, List.nil_append]
    cases findFirst l a <;> simp
  | succ n ih =>
    rw [List.replicate_succ, List.cons_append, findFirst_cons_ne hxa, ih]
    cases findFirst l a with
    | none => simp
    | some i =>
      simp only [Option.map_some', Option.some.injEq]
      omega

theorem findFirst_range' {s n t : Nat} (h1 : s ≤ t) (h2 : t < s + n) :
    findFirst (List.range' s n) t = some (t - s) := by
  induction n generalizing s with
  | zero => omega
  | succ n ih =>
    rw [List.range'_succ]
    by_cases hst : s = t
    · subst hst
      rw [findFirst_cons_self]
      simp
    · rw [findFirst_cons_ne hst, ih (by omega) (by omega)]
      simp only [Option.map_some', Option.some.injEq]
      omega

theorem getD_range'_zero {n k : Nat} (hk : k < n) :
    (List.range' 0 n).getD k 0 = k := by
  have hk2 : k < (List.range' 0 n).length := by simpa using hk
  rw [List.getD_eq_getElem?_getD, List.getElem?_eq_getElem hk2]
  simp

theorem spread_simple {N : Nat} : ∀ c ∈ spreadHaystack N, charLower c = [c] := by
  intro c hc
  simp only [spreadHaystack, List.mem_cons, List.mem_append, List.mem_replicate,
    List.not_mem_nil, or_false] at hc
  rcases hc with rfl | rfl | ⟨-, rfl⟩ | rfl <;> decide

theorem lowerMapFrom_simple {l : List Char} (hs : ∀ c ∈ l, charLower c = [c]) :
    ∀ i : Nat, lowerMapFrom l i = l.zip (List.range' i l.length) := by
  induction l with
  | nil => intro i; rfl
  | cons c rest ih =>
    intro i
    have hc : charLower c = [c] := hs c (List.mem_cons_self c rest)
    rw [lowerMapFrom, hc, ih (fun d hd => hs d (List.mem_cons_of_mem _ hd)),
      List.length_cons, List.range'_succ]
    rfl

theorem loweredChars_simple {l : List Char} (hs : ∀ c ∈ l, charLower c = [c]) :
    loweredChars l = l := by
  rw [loweredChars, lowerMap, lowerMapFrom_simple hs]
  exact List.map_fst_zip l _ (by simp)

theorem loweredToOrig_simple {l : List Char} (hs : ∀ c ∈ l, charLower c = [c]) :
    loweredToOrig l = List.range' 0 l.length := by
  rw [loweredToOrig, lowerMap, lowerMapFrom_simple hs]
  exact List.map_snd_zip l _ (by simp)

theorem spreadHaystack_length (N : Nat) : (spreadHaystack N).length = N + 3 := by
  simp [spreadHaystack]

theorem spread_scan (N : Nat) :
    greedyScan (spreadHaystack N) ['a', 'b'] 0 = some [1, N + 2] := by
  have hxa : ('x' : Char) ≠ 'a' := by decide
  have hxb : ('x' : Char) ≠ 'b' := by decide
  have h1 : findFirst (spreadHaystack N) 'a' = some 1 := by
    rw [spreadHaystack, findFirst_cons_ne hxa, findFirst_cons_self]
    rfl
  have h2 : findFirst ((spreadHaystack N).drop 2) 'b' = some N := by
    have hdrop : (spreadHaystack N).drop 2 = List.replicate N 'x' ++ ['b'] := rfl
    rw [hdrop, findFirst_replicate_append hxb, findFirst_cons_self]
    simp
  have hadd : (2 : Nat) + N = N + 2 := by omega
  simp [greedyScan, h1, h2, hadd]

theorem spread_orig (N : Nat) :
    origIndicesOf (spreadHaystack N) [1, N + 2] = [1, N + 2] := by
  have horig : loweredToOrig (spreadHaystack N) = List.range' 0 (N + 3) := by
    rw [loweredToOrig_simple spread_simple, spreadHaystack_length]
  rw [origIndicesOf]
  simp only [List.map_cons, List.map_nil, horig]
  rw [getD_range'_zero (by omega), getD_range'_zero (by omega)]

theorem spread_first (N : Nat) :
    firstLowerPosOf (spreadHaystack N)
      (origIndicesOf (spreadHaystack N) [1, N + 2]) = 1 := by
  rw [spread_orig, firstLowerPosOf, loweredToOrig_simple spread_simple,
    spreadHaystack_length, findFirst_range' (by omega) (by omega)]
  rfl

theorem lastLowerPosOf_pair (a b f : Nat) : lastLowerPosOf [a, b] f = b := rfl

theorem spread_eval (N : Nat) :
    fuzzy_match (spreadHaystack N) ['a', 'b'] =
      some ([1, N + 2], max (wrap32 ((N : Nat) : Int)) 0) := by
  have hne : (['a', 'b'] : List Char) ≠ [] := by decide
  have hchars : loweredChars (spreadHaystack N) = spreadHaystack N :=
    loweredChars_simple spread_simple
  have hnl : lowerList ['a', 'b'] = ['a', 'b'] := by decide
  have hscan : greedyScan (loweredChars (spreadHaystack N)) (lowerList ['a', 'b']) 0
      = some [1, N + 2] := by
    rw [hchars, hnl]
    exact spread_scan N
  rw [fuzzy_match_eq_some_of_scan hne hscan, hnl]
  have hsd : sortDedup (origIndicesOf (spreadHaystack N) [1, N + 2]) = [1, N + 2] := by
    rw [spread_orig]
    refine sortDedup_eq_self ?_
    rw [List.sorted_cons]
    constructor
    · intro b hb
      simp only [List.mem_singleton] at hb
      omega
    · simp
  have hscore : scoreOf (spreadHaystack N) 2 [1, N + 2] =
      max (wrap32 ((N : Nat) : Int)) 0 := by
    rw [scoreOf, spread_first, lastLowerPosOf_pair]
    have hw : windowOf (N + 2) 1 2 = wrap32 ((N : Nat) : Int) := by
      rw [windowOf_eq_wrap]
      congr 1
      push_cast
      ring
    rw [if_neg (by omega), hw]
  rw [hsd]
  have hlen2 : (['a', 'b'] : List Char).length = 2 := rfl
  rw [hlen2, hscore]

/-- C9 counterexample: with the needle `"ab"` and a haystack spreading it
across `2 ^ 31 - 1` intervening characters, the match succeeds and the score
equals the `i32::MAX` sentinel, so the sentinel is not exclusive to the
empty-needle case. -/
theorem sentinel_reached_by_nonempty_needle :
    (['a', 'b'] : List Char) ≠ [] ∧
      fuzzy_match (spreadHaystack (2 ^ 31 - 1)) ['a', 'b'] =
        some ([1, 2 ^ 31 + 1], i32Max) := by
  refine ⟨by decide, ?_⟩
  rw [spread_eval (2 ^ 31 - 1)]
  have h1 : (2 ^ 31 - 1 : Nat) + 2 = 2 ^ 31 + 1 := by norm_num
  have h2 : (((2 ^ 31 - 1 : Nat) : Int)) = 2 ^ 31 - 1 := by
    have : (2 ^ 31 : Nat) = 2147483648 := by norm_num
    norm_num [this]
  have h3 : wrap32 ((2 ^ 31 : Int) - 1) = 2 ^ 31 - 1 :=
    wrap32_eq_self (by norm_num) (by norm_num)
  rw [h1, h2, h3]
  have h4 : max ((2 ^ 31 : Int) - 1) 0 = 2 ^ 31 - 1 := by
    rw [max_eq_left (by norm_num)]
  rw [h4]
  have h5 : i32Max = (2 ^ 31 : Int) - 1 := by norm_num [i32Max]
  rw [h5]

set_option maxRecDepth 4000 in
/-- C3 counterexample: with the needle `"ab"` and a haystack spreading it
across `2 ^ 31` intervening characters, the code returns score 0 (the i32
window computation wraps to a negative value and is clamped), while the
specification's pure-arithmetic score formula yields `2 ^ 31`. -/
theorem score_formula_fails_on_wrap :
    greedyScan (loweredChars (spreadHaystack (2 ^ 31))) (lowerList ['a', 'b']) 0 =
        some [1, 2 ^ 31 + 2] ∧
      fuzzy_match (spreadHaystack (2 ^ 31)) ['a', 'b'] = some ([1, 2 ^ 31 + 2], 0) ∧
      specScore (lastLowerPosOf [1, 2 ^ 31 + 2]
          (firstLowerPosOf (spreadHaystack (2 ^ 31))
            (origIndicesOf (spreadHaystack (2 ^ 31)) [1, 2 ^ 31 + 2])))
        (firstLowerPosOf (spreadHaystack (2 ^ 31))
          (origIndicesOf (spreadHaystack (2 ^ 31)) [1, 2 ^ 31 + 2]))
        (lowerList ['a', 'b']).length = 2 ^ 31 ∧
      (0 : Int) ≠ 2 ^ 31 := by
  have hchars : loweredChars (spreadHaystack (2 ^ 31)) = spreadHaystack (2 ^ 31) :=
    loweredChars_simple spread_simple
  have hnl : lowerList ['a', 'b'] = ['a', 'b'] := by decide
  refine ⟨?_, ?_, ?_, by norm_num⟩
  · rw [hchars, hnl]
    exact spread_scan (2 ^ 31)
  · rw [spread_eval (2 ^ 31)]
    have hz : wrap32 (((2 ^ 31 : Nat) : Int)) = -(2 ^ 31) := by
      have hc : (((2 ^ 31 : Nat) : Int)) = 2 ^ 31 := by norm_num
      rw [hc]
      have hw := wrap32_add_mul (-(2 ^ 31)) 1
      have he : (-(2 ^ 31) : Int) + 2 ^ 32 * 1 = 2 ^ 31 := by norm_num
      rw [he] at hw
      rw [hw]
      exact wrap32_eq_self (by norm_num) (by norm_num)
    rw [hz]
    have hmax : max (-(2 ^ 31 : Int)) 0 = 0 := max_eq_right (by norm_num)
    rw [hmax]
  · rw [spread_first, lastLowerPosOf_pair, hnl]
    have hlen2 : (['a', 'b'] : List Char).length = 2 := rfl
    rw [hlen2, specScore, if_neg (by omega)]
    rw [specWindow]
    have hc : (((2 ^ 31 + 2 : Nat) : Int)) = 2 ^ 31 + 2 := by push_cast

    rw [hc]
    rw [max_eq_left (by norm_num)]
    norm_num

end FuzzyMatch
